import Mathlib

/- Verification development for the pause-removal video editing pipeline:
   shallow embedding of `edit_video_remove_pauses.py` (pause/filler detection,
   interval merging, keep-segment planning, main control flow) and of
   `remap_chapters.py` (timestamp remapping).  All times are rationals. -/

namespace VideoEdit

/-- One removed-pause record as read by `map_timestamp` in `remap_chapters.py`:
a JSON dict with `start`, `end` and `duration` keys.  The producing pipeline
(`--output-pauses` in `edit_video_remove_pauses.py`) always writes all three
keys, so the `.get` defaults in the source are never exercised.  The `end`
field is named `stop` because `end` is a Lean keyword. -/
structure Pause where
  start : ℚ
  stop : ℚ
  duration : ℚ
deriving DecidableEq

/-- Contribution of a single pause record to `removed_time` in one iteration of
the loop of `map_timestamp` (`remap_chapters.py`): the full `duration` when the
pause ends at or before the query time, the elapsed part `t - start` when the
query time lies strictly inside the pause, and zero otherwise. -/
def pause_contrib (t : ℚ) (p : Pause) : ℚ :=
  if p.stop ≤ t then p.duration
  else if p.start < t ∧ t < p.stop then t - p.start
  else 0

/-- Embedding of `map_timestamp` (`remap_chapters.py`): the loop accumulates the
independent per-pause contributions into `removed_time`, and the result
`original_time - removed_time` is clamped at zero. -/
def map_timestamp (t : ℚ) (pauses : List Pause) : ℚ :=
  max 0 (t - (pauses.map (pause_contrib t)).sum)

/-- Specification-side reading of `removedBefore` (spec section 4.4, for
comparison with `map_timestamp`): the sum of the magnitudes of the removals
`r` with `r.end ≤ t`, plus `t - r.start` when `t` falls strictly inside some
removal `r`. -/
def removedBefore_spec (t : ℚ) (pauses : List Pause) : ℚ :=
  ((pauses.filter fun p => p.stop ≤ t).map Pause.duration).sum +
    (match pauses.find? (fun p => decide (p.start < t) && decide (t < p.stop)) with
     | some r => t - r.start
     | none => 0)

/-- One word of the transcript JSON, `{word, start, end}`; the `end` field is
named `stop` because `end` is a Lean keyword. -/
structure Word where
  word : String
  start : ℚ
  stop : ℚ
deriving DecidableEq

/-- Embedding of `identify_pauses`: for each adjacent pair of words the gap
`next.start - current.end` is emitted as `(current.end, next.start, gap)` when
it is at least `threshold`.  The source loop over indices `0 .. len-2` is the
walk over `words.zip words.tail`. -/
def identify_pauses (words : List Word) (threshold : ℚ) : List (ℚ × ℚ × ℚ) :=
  (words.zip words.tail).filterMap fun cn =>
    if threshold ≤ cn.2.start - cn.1.stop then
      some (cn.1.stop, cn.2.start, cn.2.start - cn.1.stop)
    else none

/-- The closed set of clear Korean filler words (`CLEAR_FILLERS`). -/
def CLEAR_FILLERS : List String := ["어", "음", "아", "이", "오", "저"]

/-- One detected filler instance (the dict built by `identify_filler_words`);
the stored `word` is the stripped text, as in the source. -/
structure FillerInst where
  index : Nat
  word : String
  start : ℚ
  stop : ℚ
deriving DecidableEq

/-- Embedding of Python `str.strip()` on the transcript word text: drop leading
and trailing whitespace characters.  (Core `String.trim` computes the same
string but is defined by well-founded byte-position recursion, which does not
reduce definitionally; this structural version over the character list does.) -/
def strip_str (s : String) : String :=
  ⟨((s.data.dropWhile Char.isWhitespace).reverse.dropWhile Char.isWhitespace).reverse⟩

/-- Embedding of `identify_filler_words`: every word whose stripped text is in
`CLEAR_FILLERS` is recorded with its index and extent. -/
def identify_filler_words (words : List Word) : List FillerInst :=
  words.enum.filterMap fun iw =>
    if strip_str iw.2.word ∈ CLEAR_FILLERS then
      some ⟨iw.1, strip_str iw.2.word, iw.2.start, iw.2.stop⟩
    else none

/-- Kind tag of a removal candidate (the `'pause'` / `'filler'` strings). -/
inductive RKind where
  | pause
  | filler
deriving DecidableEq

/-- One removal candidate `(start, end, rtype, duration)` of
`generate_keep_segments`; `end` is named `stop` (Lean keyword). -/
structure RemoveRange where
  start : ℚ
  stop : ℚ
  rtype : RKind
  duration : ℚ
deriving DecidableEq

/-- Embedding of the `remove_ranges` construction in `generate_keep_segments`:
pause candidates carry their gap duration, filler candidates carry 0. -/
def remove_ranges (pauses : List (ℚ × ℚ × ℚ)) (fillers : List FillerInst) :
    List RemoveRange :=
  pauses.map (fun p => ⟨p.1, p.2.1, RKind.pause, p.2.2⟩) ++
    fillers.map fun f => ⟨f.start, f.stop, RKind.filler, 0⟩

/-- Embedding of `remove_ranges.sort(key=lambda x: x[0])`: Python's sort is a
stable sort by the `start` key, and a stable insertion sort by the same key
produces the identical list. -/
def sort_ranges (l : List RemoveRange) : List RemoveRange :=
  List.insertionSort (fun a b => a.start ≤ b.start) l

/-- Embedding of the merge loop of `generate_keep_segments`.  The Python code
appends to `merged_removes` and mutates its last element in place; here the
accumulator is kept reversed, so the open interval is the head. -/
def merge_removes_rev : List RemoveRange → List RemoveRange → List RemoveRange
  | acc, [] => acc
  | prev :: accRest, r :: rest =>
      if r.start ≤ prev.stop then
        let newType :=
          if prev.rtype = RKind.filler ∨ r.rtype = RKind.filler then RKind.filler
          else RKind.pause
        let newDur :=
          if newType = RKind.pause then max prev.duration r.duration else 0
        merge_removes_rev (⟨prev.start, max prev.stop r.stop, newType, newDur⟩ :: accRest) rest
      else
        merge_removes_rev (r :: prev :: accRest) rest
  | [], r :: rest => merge_removes_rev [r] rest

/-- The merged, disjoint removal intervals (`merged_removes` in the source). -/
def merged_removes (l : List RemoveRange) : List RemoveRange :=
  (merge_removes_rev [] l).reverse

/-- One keep segment `(start, end, preceding_pause_duration)`; `end` is named
`stop` (Lean keyword). -/
structure KeepSeg where
  start : ℚ
  stop : ℚ
  preceding : ℚ
deriving DecidableEq

/-- The minimum surviving segment duration (`MIN_SEGMENT_DURATION = 0.1`). -/
def MIN_SEGMENT_DURATION : ℚ := 1 / 10

/-- Embedding of the planning loop of `generate_keep_segments` over the merged
removal intervals: returns the emitted segments together with the final
`current_time` cursor and the pending `preceding_pause` value. -/
def keep_loop (padding tail_buffer : ℚ) :
    ℚ → ℚ → List RemoveRange → List KeepSeg × ℚ × ℚ
  | current, preceding, [] => ([], current, preceding)
  | current, preceding, r :: rest =>
      let segs : List KeepSeg :=
        if current < r.start then
          [⟨current,
            if r.rtype = RKind.pause then r.start + tail_buffer else r.start,
            preceding⟩]
        else []
      let preceding' := if r.rtype = RKind.pause then r.duration else 0
      let res := keep_loop padding tail_buffer (r.stop + padding) preceding' rest
      (segs ++ res.1, res.2)

/-- The tail of `generate_keep_segments` after merging: run the planning loop,
append the final segment `[current_time, video_end)` when the word list is
nonempty and the cursor is short of `video_end = words[-1].end`, then drop
segments shorter than `MIN_SEGMENT_DURATION`. -/
def keep_from_merged (merged : List RemoveRange) (video_end : Option ℚ)
    (padding tail_buffer : ℚ) : List KeepSeg :=
  let res := keep_loop padding tail_buffer 0 0 merged
  let withFinal : List KeepSeg :=
    match video_end with
    | some ve => if res.2.1 < ve then res.1 ++ [⟨res.2.1, ve, res.2.2⟩] else res.1
    | none => res.1
  withFinal.filter fun s => MIN_SEGMENT_DURATION ≤ s.stop - s.start

/-- Embedding of `generate_keep_segments`: build and sort the removal
candidates, merge them, and plan the keep segments against the last word's
end time. -/
def generate_keep_segments (words : List Word) (pauses : List (ℚ × ℚ × ℚ))
    (fillers : List FillerInst) (padding tail_buffer : ℚ) : List KeepSeg :=
  keep_from_merged (merged_removes (sort_ranges (remove_ranges pauses fillers)))
    ((words.getLast?).map Word.stop) padding tail_buffer

/-- Outcome of `main` (in `edit_video_remove_pauses.py`) with respect to the
segment plan. -/
inductive MainOutcome where
  | inputError
  | previewExit (segs : List KeepSeg)
  | assemble (segs : List KeepSeg)
deriving DecidableEq

/-- Embedding of the decision flow of `main` from the transcript words onward:
empty word list is an input error; otherwise pauses and (unless
`--no-fillers`) fillers are detected, keep segments are generated with the
default tail buffer `0.15`, and the program either stops after the report
(`--preview`) or proceeds to FFmpeg assembly with the segments.  The source
performs no emptiness check on the plan between planning and assembly. -/
def main_run (preview no_fillers : Bool) (words : List Word)
    (pause_threshold padding : ℚ) : MainOutcome :=
  if words = [] then MainOutcome.inputError
  else
    let pauses := identify_pauses words pause_threshold
    let fillers := if no_fillers then [] else identify_filler_words words
    let segs := generate_keep_segments words pauses fillers padding (3 / 20)
    if preview then MainOutcome.previewExit segs else MainOutcome.assemble segs

/-- Sum of keep-segment durations. -/
def sum_durations (l : List KeepSeg) : ℚ := (l.map fun s => s.stop - s.start).sum

/-- Sum of removal magnitudes (the stored `duration` fields). -/
def sum_magnitudes (l : List RemoveRange) : ℚ := (l.map RemoveRange.duration).sum

/-- Sum of removal interval lengths. -/
def sum_lengths (l : List RemoveRange) : ℚ := (l.map fun r => r.stop - r.start).sum

/-- Number of pause-kind intervals in a removal list. -/
def pause_count (l : List RemoveRange) : Nat :=
  (l.filter fun r => r.rtype = RKind.pause).length

/-- Specification-side reading of the "total padding" term in the duration
budget of spec section 8: one `padding` per removal interval. -/
def total_padding_spec (l : List RemoveRange) (padding : ℚ) : ℚ :=
  l.length * padding

/-- Specification-side resolution rule for merging two overlapping candidates
(spec section 4.2): the kind becomes filler if either participant is filler,
and the magnitude becomes the maximum pause magnitude among participants if
the resolved kind is pause, else 0. -/
def merge_pair_spec (a b : RemoveRange) : RemoveRange :=
  let k :=
    if a.rtype = RKind.filler ∨ b.rtype = RKind.filler then RKind.filler
    else RKind.pause
  ⟨a.start, max a.stop b.stop, k,
    if k = RKind.pause then max a.duration b.duration else 0⟩

/-- Decidable check that a planning run over `merged` starting at cursor
`current` emits a surviving segment before every interval and a surviving
final segment: the cursor stays strictly left of each interval start, every
emitted segment reaches `MIN_SEGMENT_DURATION`, and so does the final segment
up to `ve`. -/
def good_plan (padding tail_buffer ve : ℚ) : ℚ → List RemoveRange → Bool
  | current, [] => decide (MIN_SEGMENT_DURATION ≤ ve - current)
  | current, r :: rest =>
      decide (current < r.start) &&
      decide (MIN_SEGMENT_DURATION ≤
        (if r.rtype = RKind.pause then r.start + tail_buffer else r.start) - current) &&
      good_plan padding tail_buffer ve (r.stop + padding) rest

lemma pause_contrib_of_stop_le {t : ℚ} {p : Pause} (h : p.stop ≤ t) :
    pause_contrib t p = p.duration := by
  simp [pause_contrib, h]

lemma pause_contrib_of_before {t : ℚ} {p : Pause} (h1 : t < p.stop) (h2 : t ≤ p.start) :
    pause_contrib t p = 0 := by
  rw [pause_contrib, if_neg (not_le.mpr h1), if_neg]
  rintro ⟨h3, -⟩
  exact absurd h2 (not_le.mpr h3)

lemma pause_contrib_eq_zero_of_le_start {t : ℚ} {q : Pause} (hts : t ≤ q.start)
    (hd0 : 0 ≤ q.duration) (hdl : q.duration ≤ q.stop - q.start) :
    pause_contrib t q = 0 := by
  by_cases h : q.stop ≤ t
  · have hdz : q.duration = 0 := le_antisymm (by linarith) hd0
    rw [pause_contrib, if_pos h, hdz]
  · exact pause_contrib_of_before (not_le.mp h) hts

lemma pause_contrib_nonneg {t : ℚ} {p : Pause} (hd0 : 0 ≤ p.duration) :
    0 ≤ pause_contrib t p := by
  rw [pause_contrib]
  split
  · exact hd0
  · split
    · next h => linarith [h.1]
    · exact le_rfl

lemma contrib_sum_zero {t : ℚ} :
    ∀ l : List Pause,
      (∀ q ∈ l, t ≤ q.start ∧ 0 ≤ q.duration ∧ q.duration ≤ q.stop - q.start) →
      (l.map (pause_contrib t)).sum = 0 := by
  intro l hl
  apply List.sum_eq_zero
  intro x hx
  obtain ⟨q, hq, rfl⟩ := List.mem_map.mp hx
  obtain ⟨h1, h2, h3⟩ := hl q hq
  exact pause_contrib_eq_zero_of_le_start h1 h2 h3

lemma contrib_sum_eq_removedBefore (t : ℚ) :
    ∀ ps : List Pause, List.Pairwise (fun a b => a.stop ≤ b.start) ps →
      (∀ p ∈ ps, p.start ≤ p.stop) →
      (ps.map (pause_contrib t)).sum = removedBefore_spec t ps := by
  intro ps
  induction ps with
  | nil => intro _ _; simp [removedBefore_spec]
  | cons p rest ih =>
    intro hpw hwf
    rw [List.pairwise_cons] at hpw
    obtain ⟨hsep, hrest⟩ := hpw
    have hwf' : ∀ q ∈ rest, q.start ≤ q.stop := fun q hq => hwf q (List.mem_cons_of_mem p hq)
    have ihe := ih hrest hwf'
    rw [removedBefore_spec] at ihe
    by_cases hps : p.stop ≤ t
    · have e1 : List.filter (fun q => decide (q.stop ≤ t)) (p :: rest) =
          p :: List.filter (fun q => decide (q.stop ≤ t)) rest :=
        List.filter_cons_of_pos (by simpa using hps)
      have e2 : List.find? (fun q => decide (q.start < t) && decide (t < q.stop)) (p :: rest) =
          List.find? (fun q => decide (q.start < t) && decide (t < q.stop)) rest :=
        List.find?_cons_of_neg _ (by simp [not_lt.mpr hps])
      rw [removedBefore_spec, e1, e2, List.map_cons, List.sum_cons, List.map_cons,
        List.sum_cons, pause_contrib_of_stop_le hps, ihe]
      ring
    · have htltstop : t < p.stop := not_le.mp hps
      by_cases hin : p.start < t
      · have hrest0 : ∀ q ∈ rest, t < q.start := fun q hq =>
          lt_of_lt_of_le htltstop (hsep q hq)
        have hfilter : List.filter (fun q => decide (q.stop ≤ t)) (p :: rest) = [] := by
          rw [List.filter_eq_nil_iff]
          intro q hq
          rcases List.mem_cons.mp hq with rfl | hq'
          · simpa using hps
          · have h1 := hrest0 q hq'
            have h2 := hwf' q hq'
            simp only [decide_eq_true_eq]
            intro hc
            linarith
        have hfind : List.find? (fun q => decide (q.start < t) && decide (t < q.stop))
            (p :: rest) = some p :=
          List.find?_cons_of_pos _ (by simp [hin, htltstop])
        have hsum0 : (rest.map (pause_contrib t)).sum = 0 := by
          apply List.sum_eq_zero
          intro x hx
          obtain ⟨q, hq, rfl⟩ := List.mem_map.mp hx
          have h1 := hrest0 q hq
          have h2 := hwf' q hq
          exact pause_contrib_of_before (by linarith) (le_of_lt h1)
        rw [removedBefore_spec, hfilter, hfind, List.map_cons, List.sum_cons, hsum0,
          pause_contrib, if_neg hps, if_pos ⟨hin, htltstop⟩]
        simp
      · have e1 : List.filter (fun q => decide (q.stop ≤ t)) (p :: rest) =
            List.filter (fun q => decide (q.stop ≤ t)) rest :=
          List.filter_cons_of_neg (by simpa using hps)
        have e2 : List.find? (fun q => decide (q.start < t) && decide (t < q.stop)) (p :: rest) =
            List.find? (fun q => decide (q.start < t) && decide (t < q.stop)) rest :=
          List.find?_cons_of_neg _ (by simp [hin])
        rw [removedBefore_spec, e1, e2, List.map_cons, List.sum_cons,
          pause_contrib_of_before htltstop (not_lt.mp hin), ihe]
        ring

/-- C1: for every sorted, disjoint removal set, `map_timestamp` returns
`max 0 (t - removedBefore)` where `removedBefore` sums the magnitudes of all
removals ending at or before `t` plus `t - r.start` when `t` lies strictly
inside some removal `r`; moreover a chapter at `t = 50` with one preceding
removal `[10, 15)` of magnitude 5 maps to 45, and a chapter at `t = 12`
inside removal `[10, 15)` maps to 10. -/
theorem map_timestamp_eq_spec_and_scenarios :
    (∀ (t : ℚ) (ps : List Pause), List.Pairwise (fun a b => a.stop ≤ b.start) ps →
        (∀ p ∈ ps, p.start ≤ p.stop) →
        map_timestamp t ps = max 0 (t - removedBefore_spec t ps)) ∧
    map_timestamp 50 [⟨10, 15, 5⟩] = 45 ∧
    map_timestamp 12 [⟨10, 15, 5⟩] = 10 := by
  refine ⟨?_, by with_unfolding_all decide, by with_unfolding_all decide⟩
  intro t ps h1 h2
  rw [map_timestamp, contrib_sum_eq_removedBefore t ps h1 h2]

/-- Witness for `map_timestamp_eq_spec_and_scenarios` at the Scenario C
input: a single removal `[10, 15)` of magnitude 5. -/
theorem map_timestamp_eq_spec_witness :
    map_timestamp 50 [⟨10, 15, 5⟩] = max 0 (50 - removedBefore_spec 50 [⟨10, 15, 5⟩]) :=
  map_timestamp_eq_spec_and_scenarios.1 50 [⟨10, 15, 5⟩] (by simp)
    (by with_unfolding_all decide)

lemma contrib_sum_zero_strong {t : ℚ} (l : List Pause)
    (hl : ∀ q ∈ l, t ≤ q.start)
    (hmag : ∀ q ∈ l, 0 ≤ q.duration ∧ q.duration ≤ q.stop - q.start) :
    (l.map (pause_contrib t)).sum = 0 := by
  apply List.sum_eq_zero
  intro x hx
  obtain ⟨q, hq, rfl⟩ := List.mem_map.mp hx
  exact pause_contrib_eq_zero_of_le_start (hl q hq) (hmag q hq).1 (hmag q hq).2

lemma contrib_sum_lipschitz :
    ∀ ps : List Pause, List.Pairwise (fun a b => a.stop ≤ b.start) ps →
      (∀ p ∈ ps, 0 ≤ p.duration ∧ p.duration ≤ p.stop - p.start) →
      ∀ t t' : ℚ, t ≤ t' →
        (ps.map (pause_contrib t')).sum - (ps.map (pause_contrib t)).sum ≤ t' - t := by
  intro ps
  induction ps with
  | nil => intro _ _ t t' h; simp; linarith
  | cons p rest ih =>
    intro hpw hmag t t' htt'
    rw [List.pairwise_cons] at hpw
    obtain ⟨hsep, hrest⟩ := hpw
    have hmagp := hmag p (List.mem_cons_self p rest)
    have hmag' : ∀ q ∈ rest, 0 ≤ q.duration ∧ q.duration ≤ q.stop - q.start :=
      fun q hq => hmag q (List.mem_cons_of_mem p hq)
    have hrestzero : ∀ u : ℚ, u ≤ p.stop → (rest.map (pause_contrib u)).sum = 0 := by
      intro u hu
      exact contrib_sum_zero_strong rest (fun q hq => le_trans hu (hsep q hq)) hmag'
    simp only [List.map_cons, List.sum_cons]
    by_cases h1 : p.stop ≤ t
    · rw [pause_contrib_of_stop_le h1, pause_contrib_of_stop_le (le_trans h1 htt')]
      have := ih hrest hmag' t t' htt'
      linarith
    · have ht : t < p.stop := not_le.mp h1
      by_cases h2 : p.stop ≤ t'
      · rw [pause_contrib_of_stop_le h2]
        have hB : (rest.map (pause_contrib t)).sum = 0 := hrestzero t (le_of_lt ht)
        have hA : (rest.map (pause_contrib t')).sum ≤ t' - p.stop := by
          have hstep := ih hrest hmag' p.stop t' h2
          rw [hrestzero p.stop le_rfl] at hstep
          linarith
        by_cases h3 : p.start < t
        · rw [pause_contrib, if_neg h1, if_pos ⟨h3, ht⟩]
          have := hmagp.2
          linarith
        · rw [pause_contrib_of_before ht (not_lt.mp h3)]
          have := hmagp.2
          have := not_lt.mp h3
          linarith
      · have ht' : t' < p.stop := not_le.mp h2
        have hB : (rest.map (pause_contrib t)).sum = 0 := hrestzero t (le_of_lt ht)
        have hA : (rest.map (pause_contrib t')).sum = 0 := hrestzero t' (le_of_lt ht')
        rw [hA, hB]
        by_cases h3 : p.start < t'
        · rw [pause_contrib, if_neg h2, if_pos ⟨h3, ht'⟩]
          by_cases h4 : p.start < t
          · rw [pause_contrib, if_neg h1, if_pos ⟨h4, ht⟩]
            linarith
          · rw [pause_contrib_of_before ht (not_lt.mp h4)]
            have := not_lt.mp h4
            linarith
        · rw [pause_contrib_of_before ht' (not_lt.mp h3),
            pause_contrib_of_before ht (le_trans htt' (not_lt.mp h3))]
          linarith

/-- C2 counterexample: the claim fails as stated at a concrete sorted,
disjoint removal set with a nonnegative magnitude.  The single removal
`[10, 15)` carries the (nonnegative) magnitude 100, larger than its length;
then `map_timestamp` is not monotone: it maps 14 to 10 but 15 to 0. -/
theorem map_timestamp_not_monotone_at_large_magnitude :
    List.Pairwise (fun a b => a.stop ≤ b.start) [(⟨10, 15, 100⟩ : Pause)] ∧
    (∀ p ∈ [(⟨10, 15, 100⟩ : Pause)], 0 ≤ p.duration) ∧
    (14 : ℚ) ≤ 15 ∧
    map_timestamp 15 [⟨10, 15, 100⟩] < map_timestamp 14 [⟨10, 15, 100⟩] := by
  refine ⟨by simp, ?_, by norm_num, by with_unfolding_all decide⟩
  intro p hp
  rw [List.mem_singleton] at hp
  subst hp
  norm_num

/-- C2 (amended): for every sorted, disjoint removal set whose magnitudes are
nonnegative and bounded by their interval lengths, `map_timestamp` is
monotone nondecreasing; `map_timestamp 0 = 0` for nonnegative magnitudes;
`map_timestamp t = t` for nonnegative `t` strictly before every removal
interval; and with an empty removal set `map_timestamp t = t` for `t ≥ 0`. -/
theorem map_timestamp_monotone_and_boundary :
    (∀ (ps : List Pause) (t t' : ℚ), List.Pairwise (fun a b => a.stop ≤ b.start) ps →
        (∀ p ∈ ps, 0 ≤ p.duration ∧ p.duration ≤ p.stop - p.start) →
        t ≤ t' → map_timestamp t ps ≤ map_timestamp t' ps) ∧
    (∀ ps : List Pause, (∀ p ∈ ps, 0 ≤ p.duration) → map_timestamp 0 ps = 0) ∧
    (∀ (ps : List Pause) (t : ℚ), 0 ≤ t → (∀ p ∈ ps, t < p.start ∧ p.start ≤ p.stop) →
        map_timestamp t ps = t) ∧
    (∀ t : ℚ, 0 ≤ t → map_timestamp t [] = t) := by
  refine ⟨?_, ?_, ?_, ?_⟩
  · intro ps t t' hpw hmag htt'
    have hlip := contrib_sum_lipschitz ps hpw hmag t t' htt'
    rw [map_timestamp, map_timestamp]
    have : t - (ps.map (pause_contrib t)).sum ≤ t' - (ps.map (pause_contrib t')).sum := by
      linarith
    exact max_le_max le_rfl this
  · intro ps hmag
    have hnn : 0 ≤ (ps.map (pause_contrib 0)).sum := by
      apply List.sum_nonneg
      intro x hx
      obtain ⟨p, hp, rfl⟩ := List.mem_map.mp hx
      exact pause_contrib_nonneg (hmag p hp)
    rw [map_timestamp, max_eq_left (by linarith)]
  · intro ps t ht hbefore
    have hzero : (ps.map (pause_contrib t)).sum = 0 := by
      apply List.sum_eq_zero
      intro x hx
      obtain ⟨p, hp, rfl⟩ := List.mem_map.mp hx
      obtain ⟨h1, h2⟩ := hbefore p hp
      exact pause_contrib_of_before (lt_of_lt_of_le h1 h2) (le_of_lt h1)
    rw [map_timestamp, hzero, sub_zero, max_eq_right ht]
  · intro t ht
    rw [map_timestamp]
    simp [max_eq_right ht]

/-- Witness for `map_timestamp_monotone_and_boundary`: monotonicity applied at
the removal set of Scenario C and the points 12 and 50. -/
theorem map_timestamp_monotone_witness :
    map_timestamp 12 [⟨10, 15, 5⟩] ≤ map_timestamp 50 [⟨10, 15, 5⟩] :=
  map_timestamp_monotone_and_boundary.1 [⟨10, 15, 5⟩] 12 50 (by simp)
    (by with_unfolding_all decide) (by norm_num)

/-- C3: Scenario A.  For the words `[{a,0,1},{b,4.5,5}]` and threshold 1.0,
pause detection emits exactly the pause `(1, 4.5, 3.5)`; with padding 0.1,
tail buffer 0.15 and no filler removals the planner emits exactly the keep
segments `(0, 1.15, 0)` and `(4.6, 5, 3.5)`, in that order. -/
theorem scenarioA_pauses_and_keep_segments :
    identify_pauses [⟨ "a", 0, 1⟩, ⟨ "b", 9/2, 5⟩] 1 = [(1, 9/2, 7/2)] ∧
    generate_keep_segments [⟨ "a", 0, 1⟩, ⟨ "b", 9/2, 5⟩]
        (identify_pauses [⟨ "a", 0, 1⟩, ⟨ "b", 9/2, 5⟩] 1) [] (1/10) (3/20)
      = [⟨0, 23/20, 0⟩, ⟨23/5, 5, 7/2⟩] := by
  constructor
  · with_unfolding_all decide
  · with_unfolding_all decide

lemma merge_removes_rev_filler_dur :
    ∀ l acc : List RemoveRange,
      (∀ x ∈ acc, x.rtype = RKind.filler → x.duration = 0) →
      (∀ c ∈ l, c.rtype = RKind.filler → c.duration = 0) →
      ∀ m ∈ merge_removes_rev acc l, m.rtype = RKind.filler → m.duration = 0 := by
  intro l
  induction l with
  | nil =>
    intro acc hacc _ m hm
    rw [merge_removes_rev] at hm
    exact hacc m hm
  | cons r rest ih =>
    intro acc hacc hl
    have hr := hl r (List.mem_cons_self r rest)
    have hrest : ∀ c ∈ rest, c.rtype = RKind.filler → c.duration = 0 :=
      fun c hc => hl c (List.mem_cons_of_mem r hc)
    cases acc with
    | nil =>
      rw [merge_removes_rev]
      refine ih [r] ?_ hrest
      intro x hx
      rw [List.mem_singleton] at hx
      subst hx
      exact hr
    | cons prev accRest =>
      have haccRest : ∀ x ∈ accRest, x.rtype = RKind.filler → x.duration = 0 :=
        fun x hx => hacc x (List.mem_cons_of_mem prev hx)
      rw [merge_removes_rev]
      split
      · refine ih _ ?_ hrest
        intro x hx
        rcases List.mem_cons.mp hx with rfl | hx'
        · intro hk
          simp only at hk
          simp [hk]
        · exact haccRest x hx'
      · refine ih _ ?_ hrest
        intro x hx
        rcases List.mem_cons.mp hx with rfl | hx'
        · exact hr
        · rcases List.mem_cons.mp hx' with rfl | hx''
          · exact hacc x (List.mem_cons_self x accRest)
          · exact haccRest x hx''

/-- C4: the merger folds a candidate into the open interval exactly when its
start is at most the open interval's end, resolving the kind to filler when
either participant is filler and the magnitude to the maximum pause magnitude
when the resolved kind is pause and to 0 otherwise (stated on a two-candidate
list against the spec-side resolution rule `merge_pair_spec`); every merged
interval of filler kind built from detected candidates has magnitude 0; and
in Scenario B the filler `[2.0, 2.3]` inside the pause `[1.8, 2.5]` merges to
the single interval `[1.8, 2.5]` of kind filler with magnitude 0. -/
theorem merge_resolution_rule :
    (∀ a b : RemoveRange,
        merged_removes [a, b] =
          if b.start ≤ a.stop then [merge_pair_spec a b] else [a, b]) ∧
    (∀ (pauses : List (ℚ × ℚ × ℚ)) (fillers : List FillerInst),
        ∀ m ∈ merged_removes (sort_ranges (remove_ranges pauses fillers)),
          m.rtype = RKind.filler → m.duration = 0) ∧
    merged_removes (sort_ranges (remove_ranges [(9/5, 5/2, 7/10)] [⟨1, "어", 2, 23/10⟩]))
      = [⟨9/5, 5/2, RKind.filler, 0⟩] := by
  refine ⟨?_, ?_, by with_unfolding_all decide⟩
  · intro a b
    by_cases h : b.start ≤ a.stop
    · simp [merged_removes, merge_removes_rev, h, merge_pair_spec]
    · simp [merged_removes, merge_removes_rev, h]
  · intro pauses fillers m hm
    rw [merged_removes, List.mem_reverse] at hm
    refine merge_removes_rev_filler_dur _ [] (by simp) ?_ m hm
    intro c hc
    rw [sort_ranges] at hc
    have hc' : c ∈ remove_ranges pauses fillers :=
      (List.perm_insertionSort (fun a b => a.start ≤ b.start) (remove_ranges pauses fillers)).mem_iff.mp hc
    rw [remove_ranges, List.mem_append] at hc'
    rcases hc' with hcp | hcf
    · obtain ⟨p, _, rfl⟩ := List.mem_map.mp hcp
      intro hk
      simp at hk
    · obtain ⟨f, _, rfl⟩ := List.mem_map.mp hcf
      intro _
      rfl

/-- Witness for `merge_resolution_rule`: the merged-interval magnitude
property applied to the concrete Scenario B candidate lists. -/
theorem merge_resolution_rule_witness :
    (⟨9/5, 5/2, RKind.filler, 0⟩ : RemoveRange).duration = 0 :=
  merge_resolution_rule.2.1 [(9/5, 5/2, 7/10)] [⟨1, "어", 2, 23/10⟩]
    ⟨9/5, 5/2, RKind.filler, 0⟩ (by with_unfolding_all decide) (by rfl)

lemma sum_durations_append (a b : List KeepSeg) :
    sum_durations (a ++ b) = sum_durations a + sum_durations b := by
  simp [sum_durations]

lemma keep_loop_cons (pd tb current preceding : ℚ) (r : RemoveRange)
    (rest : List RemoveRange) :
    keep_loop pd tb current preceding (r :: rest) =
      ((if current < r.start then
          [⟨current, if r.rtype = RKind.pause then r.start + tb else r.start, preceding⟩]
        else []) ++
          (keep_loop pd tb (r.stop + pd)
            (if r.rtype = RKind.pause then r.duration else 0) rest).1,
        (keep_loop pd tb (r.stop + pd)
          (if r.rtype = RKind.pause then r.duration else 0) rest).2) := rfl

lemma keep_loop_sum (pd tb ve : ℚ) :
    ∀ (rs : List RemoveRange) (current preceding : ℚ),
      good_plan pd tb ve current rs = true →
      sum_durations (keep_loop pd tb current preceding rs).1
          + (ve - (keep_loop pd tb current preceding rs).2.1)
        = ve - current - sum_lengths rs - (rs.length : ℚ) * pd
            + (pause_count rs : ℚ) * tb := by
  intro rs
  induction rs with
  | nil =>
    intro current preceding _
    simp [keep_loop, sum_durations, sum_lengths, pause_count]
  | cons r rest ih =>
    intro current preceding hg
    simp only [good_plan, Bool.and_eq_true, decide_eq_true_eq] at hg
    obtain ⟨⟨h1, h2⟩, h3⟩ := hg
    rw [keep_loop_cons]
    simp only [if_pos h1]
    rw [sum_durations_append]
    have ihe := ih (r.stop + pd) (if r.rtype = RKind.pause then r.duration else 0) h3
    by_cases hk : r.rtype = RKind.pause
    · have hkp : (if r.rtype = RKind.pause then r.start + tb else r.start) = r.start + tb :=
        if_pos hk
      have hkp2 : (if r.rtype = RKind.pause then r.duration else (0:ℚ)) = r.duration :=
        if_pos hk
      rw [hkp, hkp2]
      rw [hkp2] at ihe
      have hL : sum_lengths (r :: rest) = (r.stop - r.start) + sum_lengths rest := by
        simp [sum_lengths]
      have hP : (pause_count (r :: rest) : ℚ) = (pause_count rest : ℚ) + 1 := by
        simp [pause_count, List.filter_cons, hk]
      have hN : ((r :: rest).length : ℚ) = (rest.length : ℚ) + 1 := by
        push_cast [List.length_cons]
        ring
      rw [hL, hP, hN]
      have hone : sum_durations [(⟨current, r.start + tb, preceding⟩ : KeepSeg)]
          = r.start + tb - current := by
        simp [sum_durations]
      rw [hone]
      linarith
    · have hkf : (if r.rtype = RKind.pause then r.start + tb else r.start) = r.start := by
        rw [if_neg hk]
      have hkf2 : (if r.rtype = RKind.pause then r.duration else (0:ℚ)) = 0 := by
        rw [if_neg hk]
      rw [hkf, hkf2]
      rw [hkf2] at ihe
      have hL : sum_lengths (r :: rest) = (r.stop - r.start) + sum_lengths rest := by
        simp [sum_lengths]
      have hP : (pause_count (r :: rest) : ℚ) = (pause_count rest : ℚ) := by
        simp [pause_count, List.filter_cons, hk]
      have hN : ((r :: rest).length : ℚ) = (rest.length : ℚ) + 1 := by
        push_cast [List.length_cons]
        ring
      rw [hL, hP, hN]
      have hone : sum_durations [(⟨current, r.start, preceding⟩ : KeepSeg)]
          = r.start - current := by
        simp [sum_durations]
      rw [hone]
      linarith

lemma keep_loop_min_dur (pd tb ve : ℚ) :
    ∀ (rs : List RemoveRange) (current preceding : ℚ),
      good_plan pd tb ve current rs = true →
      ∀ s ∈ (keep_loop pd tb current preceding rs).1,
        MIN_SEGMENT_DURATION ≤ s.stop - s.start := by
  intro rs
  induction rs with
  | nil => intro current preceding _ s hs; simp [keep_loop] at hs
  | cons r rest ih =>
    intro current preceding hg s hs
    simp only [good_plan, Bool.and_eq_true, decide_eq_true_eq] at hg
    obtain ⟨⟨h1, h2⟩, h3⟩ := hg
    rw [keep_loop_cons] at hs
    simp only [if_pos h1, List.mem_append, List.mem_singleton] at hs
    rcases hs with rfl | hs'
    · simpa using h2
    · exact ih (r.stop + pd) _ h3 s hs'

lemma keep_loop_final_good (pd tb ve : ℚ) :
    ∀ (rs : List RemoveRange) (current preceding : ℚ),
      good_plan pd tb ve current rs = true →
      MIN_SEGMENT_DURATION ≤ ve - (keep_loop pd tb current preceding rs).2.1 := by
  intro rs
  induction rs with
  | nil =>
    intro current preceding hg
    simp only [good_plan, decide_eq_true_eq] at hg
    simpa [keep_loop] using hg
  | cons r rest ih =>
    intro current preceding hg
    simp only [good_plan, Bool.and_eq_true, decide_eq_true_eq] at hg
    rw [keep_loop_cons]
    exact ih (r.stop + pd) _ hg.2

/-- C5 counterexample: the duration budget claim fails as stated.  For the
(sorted, disjoint, singleton) merged removal set consisting of the filler
interval `[2, 2.3]` (magnitude 0) with total duration 5, padding 0.1 and tail
buffer 0.15, the planner's keep durations sum to 4.6 while
`D - Σ magnitudes - total padding = 5 - 0 - 0.1 = 4.9`, a discrepancy of 0.3,
far beyond the 1e-3 tolerance. -/
theorem duration_budget_fails_on_filler :
    sum_durations (keep_from_merged [⟨2, 23/10, RKind.filler, 0⟩] (some 5) (1/10) (3/20))
        = 23/5 ∧
    (5 : ℚ) - sum_magnitudes [⟨2, 23/10, RKind.filler, 0⟩]
        - total_padding_spec [⟨2, 23/10, RKind.filler, 0⟩] (1/10) = 49/10 ∧
    ¬ |(23/5 : ℚ) - 49/10| ≤ 1/1000 := by
  refine ⟨by with_unfolding_all decide, by with_unfolding_all decide, ?_⟩
  intro h
  rw [abs_le] at h
  linarith [h.1]

/-- C5 (amended): for a merged removal set on which the planner never skips or
drops a segment (checked by `good_plan`: the cursor stays strictly left of
every interval and every emitted segment, and the final one, reaches the
minimum duration), the keep durations sum to exactly
`D - Σ(interval lengths) - n·padding + (#pause intervals)·tailBuffer`;
the claim's magnitude sum must be the interval-length sum and the padding
term must credit the tail buffers. -/
theorem keep_segments_duration_budget (rs : List RemoveRange) (D pd tb : ℚ)
    (hg : good_plan pd tb D 0 rs = true) :
    sum_durations (keep_from_merged rs (some D) pd tb)
      = D - sum_lengths rs - (rs.length : ℚ) * pd + (pause_count rs : ℚ) * tb := by
  have hmin := keep_loop_min_dur pd tb D rs 0 0 hg
  have hfin := keep_loop_final_good pd tb D rs 0 0 hg
  have hsum := keep_loop_sum pd tb D rs 0 0 hg
  have hminpos : (0:ℚ) < MIN_SEGMENT_DURATION := by norm_num [MIN_SEGMENT_DURATION]
  have hlt : (keep_loop pd tb 0 0 rs).2.1 < D := by linarith
  simp only [keep_from_merged, if_pos hlt]
  rw [List.filter_eq_self.mpr ?_]
  · rw [sum_durations_append]
    have hone : sum_durations
        [(⟨(keep_loop pd tb 0 0 rs).2.1, D, (keep_loop pd tb 0 0 rs).2.2⟩ : KeepSeg)]
        = D - (keep_loop pd tb 0 0 rs).2.1 := by
      simp [sum_durations]
    rw [hone]
    linarith
  · intro s hs
    rw [List.mem_append, List.mem_singleton] at hs
    simp only [decide_eq_true_eq]
    rcases hs with hs' | rfl
    · exact hmin s hs'
    · simpa using hfin

/-- Witness for `keep_segments_duration_budget` at the Scenario A merged
removal set: one pause `[1, 4.5]` of magnitude 3.5 with duration 5. -/
theorem keep_segments_duration_budget_witness :
    sum_durations (keep_from_merged [⟨1, 9/2, RKind.pause, 7/2⟩] (some 5) (1/10) (3/20))
      = 5 - sum_lengths [⟨1, 9/2, RKind.pause, 7/2⟩]
          - (([(⟨1, 9/2, RKind.pause, 7/2⟩ : RemoveRange)].length : ℚ)) * (1/10)
          + ((pause_count [⟨1, 9/2, RKind.pause, 7/2⟩] : ℚ)) * (3/20) :=
  keep_segments_duration_budget [⟨1, 9/2, RKind.pause, 7/2⟩] 5 (1/10) (3/20)
    (by with_unfolding_all decide)

lemma keep_loop_chain (pd tb : ℚ) (hpd : 0 ≤ pd) (htb : 0 ≤ tb) :
    ∀ (rs : List RemoveRange) (current preceding : ℚ),
      List.Pairwise (fun a b : RemoveRange => a.stop ≤ b.start) rs →
      (∀ r ∈ rs, r.start ≤ r.stop ∧
        (r.rtype = RKind.pause → tb - pd ≤ r.stop - r.start)) →
      (∀ r ∈ rs, current ≤ r.stop + pd) →
      (∀ s ∈ (keep_loop pd tb current preceding rs).1,
          current ≤ s.start ∧ s.stop ≤ (keep_loop pd tb current preceding rs).2.1) ∧
      List.Pairwise (fun a b : KeepSeg => a.stop ≤ b.start)
        (keep_loop pd tb current preceding rs).1 ∧
      current ≤ (keep_loop pd tb current preceding rs).2.1 := by
  intro rs
  induction rs with
  | nil =>
    intro current preceding _ _ _
    refine ⟨?_, ?_, le_rfl⟩
    · intro s hs; simp [keep_loop] at hs
    · simp [keep_loop]
  | cons r rest ih =>
    intro current preceding hpw hwf hentry
    rw [List.pairwise_cons] at hpw
    obtain ⟨hsep, hrest⟩ := hpw
    have hwfr := hwf r (List.mem_cons_self r rest)
    have hwf' : ∀ q ∈ rest, q.start ≤ q.stop ∧
        (q.rtype = RKind.pause → tb - pd ≤ q.stop - q.start) :=
      fun q hq => hwf q (List.mem_cons_of_mem r hq)
    have hentry' : ∀ q ∈ rest, r.stop + pd ≤ q.stop + pd := by
      intro q hq
      have h1 := hsep q hq
      have h2 := (hwf' q hq).1
      linarith
    obtain ⟨ihmem, ihpw, ihcur⟩ :=
      ih (r.stop + pd) (if r.rtype = RKind.pause then r.duration else 0) hrest hwf' hentry'
    have hcurcur : current ≤ r.stop + pd := hentry r (List.mem_cons_self r rest)
    have hsegend : (if r.rtype = RKind.pause then r.start + tb else r.start) ≤ r.stop + pd := by
      by_cases hk : r.rtype = RKind.pause
      · rw [if_pos hk]
        have := hwfr.2 hk
        linarith
      · rw [if_neg hk]
        have := hwfr.1
        linarith
    rw [keep_loop_cons]
    by_cases hc : current < r.start
    · simp only [if_pos hc]
      refine ⟨?_, ?_, le_trans hcurcur ihcur⟩
      · intro s hs
        rw [List.mem_append, List.mem_singleton] at hs
        rcases hs with rfl | hs'
        · exact ⟨le_rfl, le_trans hsegend ihcur⟩
        · obtain ⟨ha, hb⟩ := ihmem s hs'
          exact ⟨le_trans hcurcur ha, hb⟩
      · rw [List.pairwise_append]
        refine ⟨List.pairwise_singleton _ _, ihpw, ?_⟩
        intro a ha b hb
        rw [List.mem_singleton] at ha
        subst ha
        have := (ihmem b hb).1
        simpa using le_trans hsegend this
    · simp only [if_neg hc, List.nil_append]
      refine ⟨?_, ihpw, le_trans hcurcur ihcur⟩
      intro s hs
      obtain ⟨ha, hb⟩ := ihmem s hs
      exact ⟨le_trans hcurcur ha, hb⟩

/-- C6 counterexample: the claim fails as stated.  For the (sorted, disjoint,
singleton) merged removal set consisting of the pause `[1, 1.01]` with
duration 5, default padding 0.1 and tail buffer 0.15, the planner emits the
segments `(0, 1.15, 0)` and `(1.11, 5, 0.01)`: the second starts at 1.11,
strictly before the first ends at 1.15, so the output overlaps. -/
theorem keep_segments_overlap_on_short_pause :
    keep_from_merged [⟨1, 101/100, RKind.pause, 1/100⟩] (some 5) (1/10) (3/20)
      = [⟨0, 23/20, 0⟩, ⟨111/100, 5, 1/100⟩] ∧
    (111/100 : ℚ) < 23/20 :=
  ⟨by with_unfolding_all decide, by norm_num⟩

/-- C6 (amended): for every sorted, disjoint merged removal set made of
well-formed intervals whose pause intervals are at least
`tailBuffer - padding` long (with both parameters nonnegative), the keep
segments are pairwise non-overlapping (each ends no later than the next
starts) and strictly sorted by start.  The length condition is forced by the
counterexample: a pause shorter than `tailBuffer - padding` makes its tail
buffer overrun the next cursor position. -/
theorem keep_segments_disjoint_sorted (rs : List RemoveRange) (D pd tb : ℚ)
    (hpd : 0 ≤ pd) (htb : 0 ≤ tb)
    (hpw : List.Pairwise (fun a b : RemoveRange => a.stop ≤ b.start) rs)
    (hwf : ∀ r ∈ rs, 0 ≤ r.start ∧ r.start ≤ r.stop ∧
      (r.rtype = RKind.pause → tb - pd ≤ r.stop - r.start)) :
    List.Pairwise (fun a b : KeepSeg => a.stop ≤ b.start)
      (keep_from_merged rs (some D) pd tb) ∧
    List.Pairwise (fun a b : KeepSeg => a.start < b.start)
      (keep_from_merged rs (some D) pd tb) := by
  have hwf2 : ∀ r ∈ rs, r.start ≤ r.stop ∧
      (r.rtype = RKind.pause → tb - pd ≤ r.stop - r.start) :=
    fun r hr => ⟨(hwf r hr).2.1, (hwf r hr).2.2⟩
  have hentry : ∀ r ∈ rs, (0:ℚ) ≤ r.stop + pd := by
    intro r hr
    have h1 := (hwf r hr).1
    have h2 := (hwf r hr).2.1
    linarith
  obtain ⟨hmem, hchain, hcur⟩ := keep_loop_chain pd tb hpd htb rs 0 0 hpw hwf2 hentry
  have hall : List.Pairwise (fun a b : KeepSeg => a.stop ≤ b.start)
      (if (keep_loop pd tb 0 0 rs).2.1 < D then
        (keep_loop pd tb 0 0 rs).1 ++
          [⟨(keep_loop pd tb 0 0 rs).2.1, D, (keep_loop pd tb 0 0 rs).2.2⟩]
      else (keep_loop pd tb 0 0 rs).1) := by
    split
    · rw [List.pairwise_append]
      refine ⟨hchain, List.pairwise_singleton _ _, ?_⟩
      intro a ha b hb
      rw [List.mem_singleton] at hb
      subst hb
      exact (hmem a ha).2
    · exact hchain
  have hfil : List.Pairwise (fun a b : KeepSeg => a.stop ≤ b.start)
      (keep_from_merged rs (some D) pd tb) := by
    simp only [keep_from_merged]
    exact List.Pairwise.sublist (List.filter_sublist _) hall
  refine ⟨hfil, ?_⟩
  refine List.Pairwise.imp_of_mem ?_ hfil
  intro a b ha hb hab
  have hpa : MIN_SEGMENT_DURATION ≤ a.stop - a.start := by
    have h' := ha
    simp only [keep_from_merged, List.mem_filter, decide_eq_true_eq] at h'
    exact h'.2
  have hminpos : (0:ℚ) < MIN_SEGMENT_DURATION := by norm_num [MIN_SEGMENT_DURATION]
  linarith

/-- Witness for `keep_segments_disjoint_sorted` at the Scenario A merged
removal set: one pause `[1, 4.5]` of magnitude 3.5 with duration 5. -/
theorem keep_segments_disjoint_sorted_witness :
    List.Pairwise (fun a b : KeepSeg => a.stop ≤ b.start)
      (keep_from_merged [⟨1, 9/2, RKind.pause, 7/2⟩] (some 5) (1/10) (3/20)) ∧
    List.Pairwise (fun a b : KeepSeg => a.start < b.start)
      (keep_from_merged [⟨1, 9/2, RKind.pause, 7/2⟩] (some 5) (1/10) (3/20)) :=
  keep_segments_disjoint_sorted [⟨1, 9/2, RKind.pause, 7/2⟩] 5 (1/10) (3/20)
    (by norm_num) (by norm_num) (by simp) (by with_unfolding_all decide)

/-- C9 counterexample: the claim fails as stated.  For the words
`[{a,0,1},{b,2.5,2.68}]` with threshold 1, the single pause `(1, 2.5, 1.5)`
leaves the cursor at `2.6 < 2.68`, so the final range `[2.6, 2.68)` is
non-empty; yet the planner's output is just `[(0, 1.15, 0)]` — the final
segment was appended and then dropped by the 0.1s minimum-duration filter,
and the duration bound `2.68` is the transcript's last word end, not a probed
media duration (no probing exists in this program). -/
theorem final_segment_dropped_when_short :
    identify_pauses [⟨ "a", 0, 1⟩, ⟨ "b", 5/2, 67/25⟩] 1 = [(1, 5/2, 3/2)] ∧
    (keep_loop (1/10) (3/20) 0 0
        (merged_removes (sort_ranges (remove_ranges [(1, 5/2, 3/2)] [])))).2.1 < 67/25 ∧
    generate_keep_segments [⟨ "a", 0, 1⟩, ⟨ "b", 5/2, 67/25⟩] [(1, 5/2, 3/2)] [] (1/10) (3/20)
      = [⟨0, 23/20, 0⟩] :=
  ⟨by with_unfolding_all decide, by with_unfolding_all decide, by with_unfolding_all decide⟩

/-- C9 (amended): after the planning loop leaves the cursor at `c`, the final
segment `[c, D)` is appended whenever `c < D` and survives to the end of the
output whenever its length reaches the 0.1s minimum, where `D` is the last
transcript word's end time (`words[-1].end`), not a probed media duration. -/
theorem final_segment_from_transcript_end (words : List Word)
    (pauses : List (ℚ × ℚ × ℚ)) (fillers : List FillerInst) (pd tb : ℚ) (w : Word)
    (hlast : words.getLast? = some w)
    (hfit : MIN_SEGMENT_DURATION ≤ w.stop -
      (keep_loop pd tb 0 0 (merged_removes (sort_ranges (remove_ranges pauses fillers)))).2.1) :
    (generate_keep_segments words pauses fillers pd tb).getLast? =
      some ⟨(keep_loop pd tb 0 0
          (merged_removes (sort_ranges (remove_ranges pauses fillers)))).2.1,
        w.stop,
        (keep_loop pd tb 0 0
          (merged_removes (sort_ranges (remove_ranges pauses fillers)))).2.2⟩ := by
  have hminpos : (0:ℚ) < MIN_SEGMENT_DURATION := by norm_num [MIN_SEGMENT_DURATION]
  have hlt : (keep_loop pd tb 0 0
      (merged_removes (sort_ranges (remove_ranges pauses fillers)))).2.1 < w.stop := by
    linarith
  simp only [generate_keep_segments, keep_from_merged, hlast, Option.map_some']
  rw [if_pos hlt, List.filter_append]
  have hfseg : List.filter (fun s : KeepSeg => decide (MIN_SEGMENT_DURATION ≤ s.stop - s.start))
      [⟨(keep_loop pd tb 0 0
          (merged_removes (sort_ranges (remove_ranges pauses fillers)))).2.1,
        w.stop,
        (keep_loop pd tb 0 0
          (merged_removes (sort_ranges (remove_ranges pauses fillers)))).2.2⟩]
      = [⟨(keep_loop pd tb 0 0
          (merged_removes (sort_ranges (remove_ranges pauses fillers)))).2.1,
        w.stop,
        (keep_loop pd tb 0 0
          (merged_removes (sort_ranges (remove_ranges pauses fillers)))).2.2⟩] := by
    simp only [List.filter_cons, List.filter_nil, decide_eq_true_eq]
    rw [if_pos (by simpa using hfit)]
  rw [hfseg, List.getLast?_concat]

/-- Witness for `final_segment_from_transcript_end` at the Scenario A input:
the cursor ends at 4.6 and the final segment `(4.6, 5, 3.5)` closes the
output, with 5 the last word's end time. -/
theorem final_segment_from_transcript_end_witness :
    (generate_keep_segments [⟨ "a", 0, 1⟩, ⟨ "b", 9/2, 5⟩] [(1, 9/2, 7/2)] [] (1/10) (3/20)).getLast? =
      some ⟨(keep_loop (1/10) (3/20) 0 0
          (merged_removes (sort_ranges (remove_ranges [(1, 9/2, 7/2)] [])))).2.1,
        (⟨ "b", 9/2, 5⟩ : Word).stop,
        (keep_loop (1/10) (3/20) 0 0
          (merged_removes (sort_ranges (remove_ranges [(1, 9/2, 7/2)] [])))).2.2⟩ :=
  final_segment_from_transcript_end [⟨ "a", 0, 1⟩, ⟨ "b", 9/2, 5⟩] [(1, 9/2, 7/2)] []
    (1/10) (3/20) ⟨ "b", 9/2, 5⟩ (by with_unfolding_all decide) (by with_unfolding_all decide)

/-- C7 counterexample: the claim fails on the code.  For the transcript
consisting of the single filler word `{어, 0, 5}`, segment planning yields
zero surviving keep segments, yet non-preview `main` proceeds to FFmpeg
assembly with the empty plan — no `EmptyTimelineError` (or any emptiness
check) exists between planning and assembly. -/
theorem empty_plan_still_reaches_assembly :
    generate_keep_segments [⟨ "어", 0, 5⟩] (identify_pauses [⟨ "어", 0, 5⟩] 1)
        (identify_filler_words [⟨ "어", 0, 5⟩]) (1/10) (3/20) = [] ∧
    main_run false false [⟨ "어", 0, 5⟩] 1 (1/10) = MainOutcome.assemble [] :=
  ⟨by with_unfolding_all decide, by with_unfolding_all decide⟩

/-- C7 (amended): `main` performs no emptiness check on the plan: in
non-preview mode it always proceeds to assembly with exactly the generated
segments, whatever they are; in particular the all-filler transcript
`[{어, 0, 5}]` reaches assembly with the empty plan. -/
theorem main_run_no_empty_plan_check :
    (∀ (no_fillers : Bool) (words : List Word) (thr pd : ℚ), words ≠ [] →
        main_run false no_fillers words thr pd =
          MainOutcome.assemble (generate_keep_segments words (identify_pauses words thr)
            (if no_fillers then [] else identify_filler_words words) pd (3/20))) ∧
    main_run false false [⟨ "어", 0, 5⟩] 1 (1/10) = MainOutcome.assemble [] := by
  constructor
  · intro nf words thr pd hne
    simp [main_run, hne]
  · with_unfolding_all decide

/-- Witness for `main_run_no_empty_plan_check` at a one-word transcript. -/
theorem main_run_no_empty_plan_check_witness :
    main_run false false [⟨ "a", 0, 1⟩] 1 (1/10) =
      MainOutcome.assemble (generate_keep_segments [⟨ "a", 0, 1⟩]
        (identify_pauses [⟨ "a", 0, 1⟩] 1)
        (if false then [] else identify_filler_words [⟨ "a", 0, 1⟩]) (1/10) (3/20)) :=
  main_run_no_empty_plan_check.1 false [⟨ "a", 0, 1⟩] 1 (1/10) (by simp)

lemma merge_removes_rev_closed (P : RemoveRange → Prop)
    (hP : ∀ (prev r : RemoveRange) (k : RKind) (d : ℚ), P prev → P r →
      P ⟨prev.start, max prev.stop r.stop, k, d⟩) :
    ∀ l acc : List RemoveRange, (∀ x ∈ acc, P x) → (∀ c ∈ l, P c) →
      ∀ m ∈ merge_removes_rev acc l, P m := by
  intro l
  induction l with
  | nil =>
    intro acc hacc _ m hm
    rw [merge_removes_rev] at hm
    exact hacc m hm
  | cons r rest ih =>
    intro acc hacc hl
    have hr := hl r (List.mem_cons_self r rest)
    have hrest : ∀ c ∈ rest, P c := fun c hc => hl c (List.mem_cons_of_mem r hc)
    cases acc with
    | nil =>
      rw [merge_removes_rev]
      refine ih [r] ?_ hrest
      intro x hx
      rw [List.mem_singleton] at hx
      subst hx
      exact hr
    | cons prev accRest =>
      have hprev := hacc prev (List.mem_cons_self prev accRest)
      have haccRest : ∀ x ∈ accRest, P x :=
        fun x hx => hacc x (List.mem_cons_of_mem prev hx)
      rw [merge_removes_rev]
      split
      · refine ih _ ?_ hrest
        intro x hx
        rcases List.mem_cons.mp hx with rfl | hx'
        · exact hP prev r _ _ hprev hr
        · exact haccRest x hx'
      · refine ih _ ?_ hrest
        intro x hx
        rcases List.mem_cons.mp hx with rfl | hx'
        · exact hr
        · rcases List.mem_cons.mp hx' with rfl | hx''
          · exact hprev
          · exact haccRest x hx''

lemma identify_pauses_mem (words : List Word) (thr : ℚ) (p : ℚ × ℚ × ℚ)
    (hp : p ∈ identify_pauses words thr) :
    ∃ cn ∈ words.zip words.tail, p = (cn.1.stop, cn.2.start, cn.2.start - cn.1.stop) := by
  rw [identify_pauses, List.mem_filterMap] at hp
  obtain ⟨cn, hcn, heq⟩ := hp
  by_cases h : thr ≤ cn.2.start - cn.1.stop
  · rw [if_pos h] at heq
    exact ⟨cn, hcn, (Option.some.inj heq).symm⟩
  · rw [if_neg h] at heq
    cases heq

lemma identify_filler_words_mem (words : List Word) (f : FillerInst)
    (hf : f ∈ identify_filler_words words) :
    ∃ w ∈ words, f.start = w.start ∧ f.stop = w.stop := by
  rw [identify_filler_words, List.mem_filterMap] at hf
  obtain ⟨iw, hiw, heq⟩ := hf
  obtain ⟨i, w⟩ := iw
  by_cases h : strip_str w.word ∈ CLEAR_FILLERS
  · rw [if_pos h] at heq
    obtain ⟨hlt, hx⟩ := List.mem_enum hiw
    have hw : w ∈ words := hx ▸ List.getElem_mem hlt
    cases Option.some.inj heq
    exact ⟨w, hw, rfl, rfl⟩
  · rw [if_neg h] at heq
    cases heq

lemma detected_candidates_start_lb (words : List Word) (thr lo : ℚ)
    (h1 : ∀ w ∈ words, lo ≤ w.start) (h2 : ∀ w ∈ words, w.start ≤ w.stop) :
    ∀ c ∈ remove_ranges (identify_pauses words thr) (identify_filler_words words),
      lo ≤ c.start := by
  intro c hc
  rw [remove_ranges, List.mem_append] at hc
  rcases hc with hcp | hcf
  · obtain ⟨p, hp, rfl⟩ := List.mem_map.mp hcp
    obtain ⟨cn, hcn, rfl⟩ := identify_pauses_mem words thr p hp
    have hm1 : cn.1 ∈ words := (List.of_mem_zip hcn).1
    have ha := h1 cn.1 hm1
    have hb := h2 cn.1 hm1
    show lo ≤ cn.1.stop
    linarith
  · obtain ⟨f, hf, rfl⟩ := List.mem_map.mp hcf
    obtain ⟨w, hw, he1, _⟩ := identify_filler_words_mem words f hf
    show lo ≤ f.start
    rw [he1]
    exact h1 w hw

lemma detected_candidates_stop_ub (words : List Word) (thr hi : ℚ)
    (h2 : ∀ w ∈ words, w.start ≤ w.stop) (h3 : ∀ w ∈ words, w.stop ≤ hi) :
    ∀ c ∈ remove_ranges (identify_pauses words thr) (identify_filler_words words),
      c.stop ≤ hi := by
  intro c hc
  rw [remove_ranges, List.mem_append] at hc
  rcases hc with hcp | hcf
  · obtain ⟨p, hp, rfl⟩ := List.mem_map.mp hcp
    obtain ⟨cn, hcn, rfl⟩ := identify_pauses_mem words thr p hp
    have hm2 : cn.2 ∈ words := List.mem_of_mem_tail (List.of_mem_zip hcn).2
    have ha := h2 cn.2 hm2
    have hb := h3 cn.2 hm2
    show cn.2.start ≤ hi
    linarith
  · obtain ⟨f, hf, rfl⟩ := List.mem_map.mp hcf
    obtain ⟨w, hw, _, he2⟩ := identify_filler_words_mem words f hf
    show f.stop ≤ hi
    rw [he2]
    exact h3 w hw

/-- C8 counterexample: the claim fails on the code.  Feeding the merger the
pause candidate `(1, 100)` while the transcript (and hence the planner's
duration bound) ends at 5, the merged output still contains the interval
`[1, 100]`: nothing clamps an interval exceeding the total duration, and the
output does not lie within `[0, 5]`. -/
theorem merged_interval_exceeds_duration_unclamped :
    merged_removes (sort_ranges (remove_ranges [(1, 100, 99)] []))
      = [⟨1, 100, RKind.pause, 99⟩] ∧
    ([⟨ "a", 0, 1⟩, ⟨ "b", 4, 5⟩] : List Word).getLast?.map Word.stop = some 5 ∧
    ¬ (100 : ℚ) ≤ 5 :=
  ⟨by with_unfolding_all decide, by with_unfolding_all decide, by norm_num⟩

/-- C8 (amended): the merger performs no clamping; a merged interval's bounds
are inherited from its participants, so the output lies within `[0, D]`
exactly when every candidate does — which holds for candidates detected from
a transcript whose words have nonnegative starts, `end ≥ start`, and ends at
most `D`. -/
theorem merged_intervals_within_bounds :
    (∀ (l : List RemoveRange) (D : ℚ), (∀ c ∈ l, 0 ≤ c.start ∧ c.stop ≤ D) →
        ∀ m ∈ merged_removes l, 0 ≤ m.start ∧ m.stop ≤ D) ∧
    (∀ (words : List Word) (thr D : ℚ),
        (∀ w ∈ words, 0 ≤ w.start ∧ w.start ≤ w.stop ∧ w.stop ≤ D) →
        ∀ m ∈ merged_removes (sort_ranges (remove_ranges (identify_pauses words thr)
            (identify_filler_words words))), 0 ≤ m.start ∧ m.stop ≤ D) := by
  have hbase : ∀ (l : List RemoveRange) (D : ℚ), (∀ c ∈ l, 0 ≤ c.start ∧ c.stop ≤ D) →
      ∀ m ∈ merged_removes l, 0 ≤ m.start ∧ m.stop ≤ D := by
    intro l D hc m hm
    rw [merged_removes, List.mem_reverse] at hm
    refine merge_removes_rev_closed (fun x => 0 ≤ x.start ∧ x.stop ≤ D) ?_ l [] (by simp)
      hc m hm
    intro prev r k d hprev hr
    exact ⟨hprev.1, max_le hprev.2 hr.2⟩
  refine ⟨hbase, ?_⟩
  intro words thr D hw m hm
  refine hbase _ D ?_ m hm
  intro c hc
  rw [sort_ranges] at hc
  have hc' := (List.perm_insertionSort (fun a b : RemoveRange => a.start ≤ b.start) _).mem_iff.mp hc
  constructor
  · exact detected_candidates_start_lb words thr 0 (fun w hw' => (hw w hw').1)
      (fun w hw' => (hw w hw').2.1) c hc'
  · exact detected_candidates_stop_ub words thr D (fun w hw' => (hw w hw').2.1)
      (fun w hw' => (hw w hw').2.2) c hc'

/-- Witness for `merged_intervals_within_bounds` at the Scenario A transcript
with `D = 5`. -/
theorem merged_intervals_within_bounds_witness :
    ∀ m ∈ merged_removes (sort_ranges (remove_ranges
        (identify_pauses [⟨ "a", 0, 1⟩, ⟨ "b", 9/2, 5⟩] 1)
        (identify_filler_words [⟨ "a", 0, 1⟩, ⟨ "b", 9/2, 5⟩]))),
      0 ≤ m.start ∧ m.stop ≤ 5 :=
  merged_intervals_within_bounds.2 [⟨ "a", 0, 1⟩, ⟨ "b", 9/2, 5⟩] 1 5
    (by with_unfolding_all decide)

/-- C10 counterexample: the claim fails on the code.  The transcript
`[{어, 0.05, 0.5}, {b, 0.6, 1}]` is ordered by start with `end ≥ start` for
each word, yet with the default parameters the planner's output is exactly
`[(0.6, 1, 0)]`: the first keep segment starts at 0.6, not 0, and the leading
silence `[0, 0.05)` is not retained — the segment `(0, 0.05)` emitted before
the filler removal `[0.05, 0.5]` is dropped by the 0.1s minimum-duration
filter. -/
theorem leading_segment_dropped :
    ((1/20 : ℚ) ≤ 1/2 ∧ (1/20 : ℚ) ≤ 3/5 ∧ (3/5 : ℚ) ≤ 1) ∧
    generate_keep_segments [⟨ "어", 1/20, 1/2⟩, ⟨ "b", 3/5, 1⟩]
        (identify_pauses [⟨ "어", 1/20, 1/2⟩, ⟨ "b", 3/5, 1⟩] 1)
        (identify_filler_words [⟨ "어", 1/20, 1/2⟩, ⟨ "b", 3/5, 1⟩]) (1/10) (3/20)
      = [⟨3/5, 1, 0⟩] ∧
    (3/5 : ℚ) ≠ 0 :=
  ⟨by norm_num, by with_unfolding_all decide, by norm_num⟩

lemma keep_from_merged_head (r : RemoveRange) (ms : List RemoveRange) (ve pd tb : ℚ)
    (h0 : 0 < r.start)
    (hmin : MIN_SEGMENT_DURATION ≤
      (if r.rtype = RKind.pause then r.start + tb else r.start)) :
    ∃ t, keep_from_merged (r :: ms) (some ve) pd tb =
      ⟨0, if r.rtype = RKind.pause then r.start + tb else r.start, 0⟩ :: t := by
  simp only [keep_from_merged, keep_loop_cons, if_pos h0, List.singleton_append]
  split
  next hk =>
    rw [if_pos hk] at hmin
    split
    · rw [List.cons_append, List.filter_cons_of_pos (by simpa using hmin)]
      exact ⟨_, rfl⟩
    · rw [List.filter_cons_of_pos (by simpa using hmin)]
      exact ⟨_, rfl⟩
  next hk =>
    rw [if_neg hk] at hmin
    split
    · rw [List.cons_append, List.filter_cons_of_pos (by simpa using hmin)]
      exact ⟨_, rfl⟩
    · rw [List.filter_cons_of_pos (by simpa using hmin)]
      exact ⟨_, rfl⟩

/-- C10 (amended): every removal candidate detected from an ordered transcript
with `end ≥ start` starts no earlier than the first word (so none intersects
the leading interval `[0, first.start)`); and the first keep segment starts
at time 0 — retaining the leading silence in full — provided the first merged
removal starts at least `MIN_SEGMENT_DURATION` into the timeline (and, when
there are no removals, the transcript lasts at least that long).  The proviso
is forced by the counterexample: a removal starting within 0.1s of time 0
makes the leading segment fall to the minimum-duration filter. -/
theorem leading_interval_and_first_segment (words : List Word) (thr pd tb : ℚ)
    (w0 wl : Word) (hhead : words.head? = some w0) (hlast : words.getLast? = some wl)
    (htb : 0 ≤ tb)
    (h1 : ∀ w ∈ words, w0.start ≤ w.start ∧ w.start ≤ w.stop)
    (hfirst : ∀ r ∈ merged_removes (sort_ranges (remove_ranges (identify_pauses words thr)
        (identify_filler_words words))), MIN_SEGMENT_DURATION ≤ r.start)
    (hemp : merged_removes (sort_ranges (remove_ranges (identify_pauses words thr)
        (identify_filler_words words))) = [] → MIN_SEGMENT_DURATION ≤ wl.stop) :
    (∀ c ∈ remove_ranges (identify_pauses words thr) (identify_filler_words words),
        w0.start ≤ c.start) ∧
    ∃ s t, generate_keep_segments words (identify_pauses words thr)
        (identify_filler_words words) pd tb = s :: t ∧ s.start = 0 ∧ w0.start ≤ s.stop := by
  have hminpos : (0:ℚ) < MIN_SEGMENT_DURATION := by norm_num [MIN_SEGMENT_DURATION]
  have hw0 : w0 ∈ words := by
    rw [List.eq_cons_of_mem_head? (Option.mem_def.mpr hhead)]
    exact List.mem_cons_self w0 words.tail
  have hwl : wl ∈ words := by
    obtain ⟨h, rfl⟩ := List.mem_getLast?_eq_getLast (Option.mem_def.mpr hlast)
    exact List.getLast_mem h
  have hcand : ∀ c ∈ remove_ranges (identify_pauses words thr) (identify_filler_words words),
      w0.start ≤ c.start :=
    detected_candidates_start_lb words thr w0.start (fun w hw => (h1 w hw).1)
      (fun w hw => (h1 w hw).2)
  refine ⟨hcand, ?_⟩
  have hmercand : ∀ m ∈ merged_removes (sort_ranges (remove_ranges (identify_pauses words thr)
      (identify_filler_words words))), w0.start ≤ m.start := by
    intro m hm
    rw [merged_removes, List.mem_reverse] at hm
    refine merge_removes_rev_closed (fun x => w0.start ≤ x.start) ?_ _ [] (by simp) ?_ m hm
    · intro prev r k d hprev _
      exact hprev
    · intro c hc
      rw [sort_ranges] at hc
      exact hcand c
        ((List.perm_insertionSort (fun a b : RemoveRange => a.start ≤ b.start) _).mem_iff.mp hc)
  rcases hM : merged_removes (sort_ranges (remove_ranges (identify_pauses words thr)
      (identify_filler_words words))) with _ | ⟨r, ms⟩
  · have hstop := hemp hM
    have hpos : (0:ℚ) < wl.stop := lt_of_lt_of_le hminpos hstop
    refine ⟨⟨0, wl.stop, 0⟩, [], ?_, rfl, ?_⟩
    · rw [generate_keep_segments, hM, hlast]
      simp only [Option.map_some', keep_from_merged, keep_loop]
      rw [if_pos hpos, List.nil_append, List.filter_cons_of_pos (by simpa using hstop),
        List.filter_nil]
    · have hw := h1 wl hwl
      exact le_trans hw.1 hw.2
  · have hrstart : MIN_SEGMENT_DURATION ≤ r.start := by
      refine hfirst r ?_
      rw [hM]
      exact List.mem_cons_self r ms
    have h0r : (0:ℚ) < r.start := lt_of_lt_of_le hminpos hrstart
    have hsegmin : MIN_SEGMENT_DURATION ≤
        (if r.rtype = RKind.pause then r.start + tb else r.start) := by
      by_cases hk : r.rtype = RKind.pause
      · rw [if_pos hk]; linarith
      · rw [if_neg hk]; exact hrstart
    obtain ⟨t, ht⟩ := keep_from_merged_head r ms wl.stop pd tb h0r hsegmin
    refine ⟨⟨0, if r.rtype = RKind.pause then r.start + tb else r.start, 0⟩, t, ?_, rfl, ?_⟩
    · rw [generate_keep_segments, hM, hlast]
      simpa only [Option.map_some'] using ht
    · have hw0r : w0.start ≤ r.start := by
        refine hmercand r ?_
        rw [hM]
        exact List.mem_cons_self r ms
      by_cases hk : r.rtype = RKind.pause
      · rw [if_pos hk]
        show w0.start ≤ r.start + tb
        linarith
      · rw [if_neg hk]
        exact hw0r

/-- Witness for `leading_interval_and_first_segment`: the transcript
`[{a,1,2},{b,3,4}]` with threshold 1 has one pause removal `[2, 3]`; the
first keep segment is `(0, 2.15, 0)`, which starts at 0 and covers the
leading interval `[0, 1)`. -/
theorem leading_interval_and_first_segment_witness :
    (∀ c ∈ remove_ranges (identify_pauses [⟨ "a", 1, 2⟩, ⟨ "b", 3, 4⟩] 1)
        (identify_filler_words [⟨ "a", 1, 2⟩, ⟨ "b", 3, 4⟩]),
      (⟨ "a", 1, 2⟩ : Word).start ≤ c.start) ∧
    ∃ s t, generate_keep_segments [⟨ "a", 1, 2⟩, ⟨ "b", 3, 4⟩]
        (identify_pauses [⟨ "a", 1, 2⟩, ⟨ "b", 3, 4⟩] 1)
        (identify_filler_words [⟨ "a", 1, 2⟩, ⟨ "b", 3, 4⟩]) (1/10) (3/20) = s :: t ∧
      s.start = 0 ∧ (⟨ "a", 1, 2⟩ : Word).start ≤ s.stop :=
  leading_interval_and_first_segment [⟨ "a", 1, 2⟩, ⟨ "b", 3, 4⟩] 1 (1/10) (3/20)
    ⟨ "a", 1, 2⟩ ⟨ "b", 3, 4⟩ rfl rfl (by norm_num)
    (by with_unfolding_all decide) (by with_unfolding_all decide)
    (by with_unfolding_all decide)

end VideoEdit
